import Mathlib

/-!
Verification of the ghacks-prefs-updater program (src/main.rs): a shallow
embedding of its header parser (`get_version_info`), its preference merge
(`extract_pref`, `minify`) and the decision/commit tail of the update
workflow (`run`), together with theorems settling the specification claims.
Strings are modelled as lists of characters (`Str`); the Rust string
primitives used by the program (`split`, `contains`, `trim`, `replace`,
`lines`, `read_line`, `starts_with`) are modelled by the executable
functions below.
-/

/-- Strings, modelled as lists of characters. -/
abbrev Str : Type := List Char

/-- I/O error kinds the program distinguishes (`ErrorKind::NotFound`
versus any other failing filesystem operation). -/
inductive IoKind where
  | notFound
  | opFailed
deriving DecidableEq

/-- `enum UpdaterError` from src/main.rs. The `NetworkError` payload is
opaque transport data, irrelevant to the modelled code, so it is dropped. -/
inductive UpdaterError where
  | MissingScript
  | MissingOverrides
  | ParseError : Str → UpdaterError
  | IoError : IoKind → UpdaterError
  | NetworkError
deriving DecidableEq

/-- Result of running a fragment of the Rust code: a normal return value,
an early `UpdaterError` return, or a panic (process abort, as produced by
`Option::unwrap` on `None`). -/
inductive Outcome (α : Type) where
  | ok : α → Outcome α
  | err : UpdaterError → Outcome α
  | panicked : Outcome α
deriving DecidableEq

/-- Whether an outcome is an error return. -/
def Outcome.isErr : Outcome α → Bool
  | .err _ => true
  | _ => false

/-- `struct Version` from src/main.rs; `PartialEq` is derived there, so
equality is structural equality of the three fields. -/
structure Version where
  name : Str
  version : Str
  date : Str
deriving DecidableEq

/-! ## Rust string primitives -/

/-- Helper for `splitCh`: returns the first segment before `c` together
with the remaining segments.  Models Rust `str::split` with a single-char
pattern (always yields at least one, possibly empty, segment). -/
def splitChGo (c : Char) : Str → Str × List Str
  | [] => ([], [])
  | a :: s =>
    if a = c then
      let r := splitChGo c s
      ([], r.1 :: r.2)
    else
      let r := splitChGo c s
      (a :: r.1, r.2)

/-- Rust `str::split` with a single-character pattern. -/
def splitCh (c : Char) (s : Str) : List Str :=
  (splitChGo c s).1 :: (splitChGo c s).2

/-- Fuel-driven worker for `splitSub` (fuel bounds the input length so the
recursion is structural and kernel-reducible).  At each position, if the
separator is a prefix there, a segment boundary is emitted and the
separator consumed; otherwise the character joins the current segment. -/
def splitSubGoF (c0 : Char) (sep : Str) : Nat → Str → Str × List Str
  | 0, _ => ([], [])
  | _ + 1, [] => ([], [])
  | f + 1, c :: cs =>
    if (c0 :: sep).isPrefixOf (c :: cs) then
      let r := splitSubGoF c0 sep f (cs.drop sep.length)
      ([], r.1 :: r.2)
    else
      let r := splitSubGoF c0 sep f cs
      (c :: r.1, r.2)

/-- Rust `str::split` with a multi-character pattern: splits on leftmost
non-overlapping occurrences of `sep`.  (The program never splits on an
empty pattern; that case returns the whole string as one segment.) -/
def splitSub (sep s : Str) : List Str :=
  match sep with
  | [] => [s]
  | c0 :: sr =>
    let r := splitSubGoF c0 sr s.length s
    r.1 :: r.2

/-- Rust `str::contains` for a substring pattern: a non-empty pattern
occurs in `s` exactly when splitting on it yields more than one segment. -/
def containsSub (s pat : Str) : Bool :=
  pat.isEmpty || !((splitSub pat s).drop 1).isEmpty

/-- Rust `String::replace(pat, "")` for a single-character pattern:
removes every occurrence of the character. -/
def removeChar (c : Char) (s : Str) : Str :=
  s.filter (fun a => a != c)

/-- Rust `str::trim`: strip leading and trailing whitespace. -/
def trimS (s : Str) : Str :=
  ((s.dropWhile Char.isWhitespace).reverse.dropWhile Char.isWhitespace).reverse

/-- Serialization of a list of lines with a separator (Rust
`Vec::join`). -/
def interc (sep : Str) : List Str → Str
  | [] => []
  | [x] => x
  | x :: y :: t => x ++ sep ++ interc sep (y :: t)

/-- The successive chunks produced by `BufRead::read_line` on a text
source: every chunk keeps its trailing newline; the final chunk is what
follows the last newline (empty if the text ends with one, matching
`read_line` returning an empty string at end of input). -/
def fileLines (s : Str) : List Str :=
  let parts := splitCh '\n' s
  parts.dropLast.map (fun p => p ++ ['\n']) ++ [parts.getLastD []]

/-- The `i`-th `read_line` result on text `s` (empty past end of input). -/
def readLine (s : Str) (i : Nat) : Str :=
  (fileLines s).getD i []

/-! ## HeaderParser: `get_version_info` (src/main.rs lines 66-93)

The Rust function reads four lines from the file: line 0 is the
comment-open marker, read into `void` and discarded (which is why the
name, date and version sit at line indices 1, 2 and 3).  Each of the
three fields is obtained as `line.split(marker).skip(1).next().unwrap()`:
the segment between the first and second occurrence of the marker, and a
panic when the marker does not occur.  The `"ghacks"` recognition check
runs on the raw name segment (trailing newline still present); newline
characters are removed from all three fields only when the record is
built. -/

def get_version_info (t : Str) : Outcome Version :=
  match ((splitSub ("name: ".data) (readLine t 1)).drop 1).head? with
  | none => .panicked
  | some nm =>
    match ((splitSub ("date: ".data) (readLine t 2)).drop 1).head? with
    | none => .panicked
    | some dt =>
      match ((splitSub ("version ".data) (readLine t 3)).drop 1).head? with
      | none => .panicked
      | some vr =>
        if containsSub nm ("ghacks".data) = false then
          .err (.ParseError ("Version not recognized".data))
        else
          .ok ⟨removeChar '\n' nm, removeChar '\n' vr, removeChar '\n' dt⟩

/-! ## PreferenceMerger: `extract_pref` and `minify`
(src/main.rs lines 103-149) -/

/-- Strip a final carriage return (done by `BufRead::lines` on a line that
was terminated by a newline). -/
def stripCR (l : Str) : Str :=
  if l.getLast? = some '\r' then l.dropLast else l

/-- Rust `BufRead::lines` on an in-memory text: split on newlines, drop
the trailing empty chunk produced by a terminating newline, and strip a
carriage return at the end of every newline-terminated line (the final
line, when the text does not end with a newline, keeps a trailing
carriage return, as in the standard library). -/
def rustLines (s : Str) : List Str :=
  let parts := splitCh '\n' s
  if parts.getLast? = some [] then
    parts.dropLast.map stripCR
  else
    parts.dropLast.map stripCR ++ [parts.getLastD []]

/-- The declaration line marker `"user_pref("` (ten characters). -/
def declMark : Str := "user_pref(".data

/-- `extract_pref` from src/main.rs (lines 103-110).  `line[10..]` is the
text after the marker (callers only pass lines starting with the
ten-byte ASCII marker, so the byte slice equals dropping ten characters);
`split(")").next()` is the text before the first closing parenthesis;
that text is then split on every comma: the key is the first segment with
all double quotes removed and then trimmed, and the value is the second
segment trimmed — `unwrap` panics when there is no comma, and any text
after a second comma is dropped. -/
def extract_pref (line : Str) : Outcome (Str × Str) :=
  match splitCh ',' (splitChGo ')' (line.drop 10)).1 with
  | k :: v :: _ => .ok (trimS (removeChar '"' k), trimS v)
  | _ => .panicked

/-- Evaluate a list of `Outcome`s left to right, stopping at the first
abnormal one (models consuming an iterator of panicking computations). -/
def seqOutcome : List (Outcome α) → Outcome (List α)
  | [] => .ok []
  | x :: xs =>
    match x with
    | .ok a =>
      match seqOutcome xs with
      | .ok t => .ok (a :: t)
      | .err e => .err e
      | .panicked => .panicked
    | .err e => .err e
    | .panicked => .panicked

/-- The lines of a document that start with `user_pref(` (the filter in
`minify`, applied to all lines of the document, header block included). -/
def prefLines (d : Str) : List Str :=
  (rustLines d).filter (fun l => declMark.isPrefixOf l)

/-- The `(key, value)` pairs extracted from a document's declaration
lines (panics if any declaration line lacks a comma). -/
def docDecls (d : Str) : Outcome (List (Str × Str)) :=
  seqOutcome ((prefLines d).map extract_pref)

/-- `HashMap::insert` on the association-list model of the entry map:
replace the value in place when the key is present, append otherwise.
The list order is a canonical representation only; the iteration order of
the real `HashMap` is modelled separately (see `minify`). -/
def insertA : List (Str × Str) → Str → Str → List (Str × Str)
  | [], k, v => [(k, v)]
  | (k0, v0) :: t, k, v =>
    if k0 = k then (k0, v) :: t else (k0, v0) :: insertA t k v

/-- Lookup in the association-list model of the entry map. -/
def lookupA : List (Str × Str) → Str → Option Str
  | [], _ => none
  | (k0, v0) :: t, k => if k = k0 then some v0 else lookupA t k

/-- `collect::<HashMap<_,_>>()` on a list of pairs: repeated insertion
into an empty map (a later pair with the same key overwrites an earlier
one). -/
def collectA (l : List (Str × Str)) : List (Str × Str) :=
  l.foldl (fun m kv => insertA m kv.1 kv.2) []

/-- The key-value map of one document's declarations. -/
def docMap (d : Str) : Outcome (List (Str × Str)) :=
  match docDecls d with
  | .ok l => .ok (collectA l)
  | .err e => .err e
  | .panicked => .panicked

/-- The content of `entries` at the end of `minify` (src/main.rs lines
130-141): the base document's declarations collected into a map, then
every override declaration inserted over it. -/
def minifyEntries (base ov : Str) : Outcome (List (Str × Str)) :=
  match docDecls base with
  | .err e => .err e
  | .panicked => .panicked
  | .ok bd =>
    match docDecls ov with
    | .err e => .err e
    | .panicked => .panicked
    | .ok od => .ok (od.foldl (fun m kv => insertA m kv.1 kv.2) (collectA bd))

/-- Re-serialization `format!("user_pref(\"{}\", {});", key, value)` of
one entry (src/main.rs line 144). -/
def serializePref (kv : Str × Str) : Str :=
  "user_pref(\"".data ++ kv.1 ++ "\", ".data ++ kv.2 ++ ");".data

/-- The header block emitted by `minify`: the first 76 post-`lines()`
lines of the base document joined with newlines. -/
def headerOf (b : Str) : Str :=
  interc ['\n'] ((rustLines b).take 76)

/-- `minify` from src/main.rs (lines 112-149).  `ord` models the
iteration order of `entries.into_iter()`: the standard `HashMap` yields
its entries in an unspecified order, so `minify` is parametrised by a
reordering of the canonical entry list; any single program run uses some
such order (a permutation of the entries).  Output: header block, blank
line, serialized entries. -/
def minify (ord : List (Str × Str) → List (Str × Str)) (original overrides : Str) :
    Outcome Str :=
  match minifyEntries original overrides with
  | .err e => .err e
  | .panicked => .panicked
  | .ok entries =>
    .ok (headerOf original ++ ['\n', '\n'] ++ interc ['\n'] ((ord entries).map serializePref))

/-! ## UpdateWorkflow: the decision/commit tail of `run`
(src/main.rs lines 223-252)

The tail of `run` starts after the candidate has been built and written
to the staging path `user.js.new`: it re-opens the staging file, parses
its header, compares the two `Version` records and either commits (rename
live file to the backup name, then rename staging onto the live path) or
discards (delete the staging file).

The filesystem is a map from paths to optional contents.  Every
filesystem operation of the tail may fail (`UpdaterError::IoError` covers
any filesystem failure): a list of booleans injects such failures, one
slot per operation in program order — slot 0 the staging open/read,
slot 1 the first mutation of the taken branch (backup rename or staging
delete), slot 2 the promote rename.  A missing slot means the operation
succeeds. -/

/-- Filesystem state: contents found at each path. -/
abbrev FS : Type := Str → Option Str

/-- Point update of a filesystem. -/
def fsSet (fs : FS) (p : Str) (c : Option Str) : FS :=
  fun q => if q = p then c else fs q

/-- The live configuration path `"user.js"`. -/
def liveP : Str := "user.js".data

/-- The staging path `"user.js.new"`. -/
def stagingP : Str := "user.js.new".data

/-- `format!("user-backup-{}.js", time)` (src/main.rs line 241). -/
def backup_name (time : Str) : Str :=
  "user-backup-".data ++ time ++ ".js".data

/-- Result of the workflow tail: normal completion, error return, or
panic inside the header parser. -/
inductive RunRes where
  | okRun : RunRes
  | errRun : UpdaterError → RunRes
  | panicRun : RunRes
deriving DecidableEq

/-- The decision/commit tail of `run` (src/main.rs lines 223-252),
given the previously parsed live-file version `oldV`, the backup file
name (built from the wall-clock time at commit), the filesystem state at
the point where the staging file has been written, and the
failure-injection oracle. -/
def runTail (oldV : Version) (bkp : Str) (fs : FS) (oracle : List Bool) : RunRes × FS :=
  if oracle.getD 0 true = false then (.errRun (.IoError .opFailed), fs)
  else
    match fs stagingP with
    | none => (.errRun (.IoError .notFound), fs)
    | some sc =>
      match get_version_info sc with
      | .panicked => (.panicRun, fs)
      | .err e => (.errRun e, fs)
      | .ok newV =>
        if oldV = newV then
          -- the "changed" (commit) branch: fs::rename("user.js", backup),
          -- then fs::rename("user.js.new", "user.js")
          if oracle.getD 1 true = false then (.errRun (.IoError .opFailed), fs)
          else
            match fs liveP with
            | none => (.errRun (.IoError .notFound), fs)
            | some lc =>
              let fs1 := fsSet (fsSet fs liveP none) bkp (some lc)
              if oracle.getD 2 true = false then (.errRun (.IoError .opFailed), fs1)
              else
                match fs1 stagingP with
                | none => (.errRun (.IoError .notFound), fs1)
                | some sc2 => (.okRun, fsSet (fsSet fs1 stagingP none) liveP (some sc2))
        else
          -- the "no changes" branch: fs::remove_file("user.js.new")
          if oracle.getD 1 true = false then (.errRun (.IoError .opFailed), fs)
          else
            match fs stagingP with
            | none => (.errRun (.IoError .notFound), fs)
            | some _ => (.okRun, fsSet fs stagingP none)

/-- A concrete well-formed header text used by the workflow examples. -/
def exHeader : Str :=
  "/*\n* name: ghacks user.js\n* date: 01 Jan 2020\n* version 1\n".data

/-- The version record parsed from `exHeader`. -/
def exVersion : Version := ⟨"ghacks user.js".data, "1".data, "01 Jan 2020".data⟩

/-- A filesystem whose live and staging files both hold `exHeader`. -/
def exFS : FS := fun p =>
  if p = liveP then some exHeader else if p = stagingP then some exHeader else none

/-! ## Spec-side definition for the header-block claim -/

/-- Modelled from the spec: "the first N lines of `base` byte-for-byte" —
the prefix of `s` spanning its first `n` lines, newline characters
included (all of `s` when it has at most `n` lines). -/
def specFirstLines (n : Nat) (s : Str) : Str :=
  if (splitCh '\n' s).length ≤ n then s
  else interc ['\n'] ((splitCh '\n' s).take n) ++ ['\n']

/-! ## Lemmas about the string primitives -/

theorem splitChGo_of_not_mem (c : Char) (s : Str) (h : c ∉ s) :
    splitChGo c s = (s, []) := by
  induction s with
  | nil => rfl
  | cons a t ih =>
    have ha : a ≠ c := fun hac => h (hac ▸ List.mem_cons_self a t)
    have ht : c ∉ t := fun hct => h (List.mem_cons_of_mem a hct)
    simp [splitChGo, ha, ih ht]

theorem splitChGo_append (c : Char) (a b : Str) (h : c ∉ a) :
    splitChGo c (a ++ c :: b) = (a, (splitChGo c b).1 :: (splitChGo c b).2) := by
  induction a with
  | nil => simp [splitChGo]
  | cons x t ih =>
    have hx : x ≠ c := fun hxc => h (hxc ▸ List.mem_cons_self x t)
    have ht : c ∉ t := fun hct => h (List.mem_cons_of_mem x hct)
    simp [splitChGo, hx, ih ht]

theorem interc_splitChGo (c : Char) (s : Str) :
    interc [c] ((splitChGo c s).1 :: (splitChGo c s).2) = s := by
  induction s with
  | nil => rfl
  | cons a t ih =>
    by_cases h : a = c
    · subst h
      simp only [splitChGo, if_pos rfl]
      simpa [interc] using ih
    · simp only [splitChGo, if_neg h]
      cases hg : (splitChGo c t).2 with
      | nil =>
        rw [hg] at ih
        simpa [interc] using ih
      | cons y l =>
        rw [hg] at ih
        simp only [interc] at ih ⊢
        simp only [List.cons_append]
        rw [ih]

theorem interc_splitCh (c : Char) (s : Str) : interc [c] (splitCh c s) = s :=
  interc_splitChGo c s

theorem splitCh_ne_nil (c : Char) (s : Str) : splitCh c s ≠ [] := by
  simp [splitCh]

theorem interc_concat (sep : Str) (l : List Str) (x : Str) (h : l ≠ []) :
    interc sep (l ++ [x]) = interc sep l ++ sep ++ x := by
  induction l with
  | nil => exact absurd rfl h
  | cons a t ih =>
    cases t with
    | nil => simp [interc]
    | cons b t2 =>
      have := ih (by simp)
      simp only [List.cons_append, interc] at this ⊢
      simp [this]

/-! ## Lemmas about the association-list entry map -/

/-- First-some choice on options (the shape of a map lookup through an
overlay). -/
def orO : Option Str → Option Str → Option Str
  | some v, _ => some v
  | none, y => y

theorem lookupA_insertA (m : List (Str × Str)) (k v k' : Str) :
    lookupA (insertA m k v) k' = if k' = k then some v else lookupA m k' := by
  induction m with
  | nil => simp [insertA, lookupA]
  | cons p t ih =>
    obtain ⟨k0, v0⟩ := p
    by_cases h : k0 = k
    · subst h
      by_cases h2 : k' = k0 <;> simp [insertA, lookupA, h2]
    · by_cases h2 : k' = k0
      · subst h2
        have : ¬ k' = k := h
        simp [insertA, lookupA, h, this]
      · simp [insertA, lookupA, h, h2, ih]

theorem lookupA_append (l1 l2 : List (Str × Str)) (k : Str) :
    lookupA (l1 ++ l2) k = orO (lookupA l1 k) (lookupA l2 k) := by
  induction l1 with
  | nil => simp [lookupA, orO]
  | cons p t ih =>
    obtain ⟨k0, v0⟩ := p
    by_cases h : k = k0 <;> simp [lookupA, h, ih, orO]

/-- The value of the last pair of `l` carrying key `k`. -/
def lastVal (l : List (Str × Str)) (k : Str) : Option Str :=
  lookupA l.reverse k

theorem lookupA_foldl_insertA (l : List (Str × Str)) (m : List (Str × Str)) (k : Str) :
    lookupA (l.foldl (fun m kv => insertA m kv.1 kv.2) m) k
      = orO (lastVal l k) (lookupA m k) := by
  induction l generalizing m with
  | nil => simp [lastVal, lookupA, orO]
  | cons p t ih =>
    simp only [List.foldl_cons, ih, lookupA_insertA, lastVal, List.reverse_cons,
      lookupA_append]
    cases lookupA t.reverse k with
    | none =>
      by_cases h : k = p.1 <;> simp [orO, lookupA, h]
    | some w => simp [orO]

theorem lookupA_collectA (l : List (Str × Str)) (k : Str) :
    lookupA (collectA l) k = lastVal l k := by
  unfold collectA
  rw [lookupA_foldl_insertA]
  cases lastVal l k <;> simp [orO, lookupA]

theorem lookupA_mem (l : List (Str × Str)) (k v : Str) (h : lookupA l k = some v) :
    (k, v) ∈ l := by
  induction l with
  | nil => simp [lookupA] at h
  | cons p t ih =>
    obtain ⟨k0, v0⟩ := p
    by_cases hk : k = k0
    · subst hk
      simp [lookupA] at h
      simp [h]
    · simp [lookupA, hk] at h
      exact List.mem_cons_of_mem _ (ih h)

theorem keys_insertA_self (m : List (Str × Str)) (k v : Str) :
    k ∈ (insertA m k v).map Prod.fst := by
  induction m with
  | nil => simp [insertA]
  | cons p t ih =>
    obtain ⟨k0, v0⟩ := p
    by_cases h : k0 = k
    · subst h; simp [insertA]
    · simp only [insertA, if_neg h, List.map_cons, List.mem_cons]
      exact Or.inr ih

theorem keys_insertA_mono (m : List (Str × Str)) (k' v' k : Str)
    (h : k ∈ m.map Prod.fst) : k ∈ (insertA m k' v').map Prod.fst := by
  induction m with
  | nil => simp at h
  | cons p t ih =>
    obtain ⟨k0, v0⟩ := p
    by_cases hk : k0 = k'
    · subst hk; simpa [insertA] using h
    · simp only [List.map_cons, List.mem_cons] at h
      rcases h with h | h
      · simp [insertA, hk, h]
      · simp only [insertA, if_neg hk, List.map_cons, List.mem_cons]
        exact Or.inr (ih h)

theorem keys_foldl_mono (l : List (Str × Str)) (m : List (Str × Str)) (k : Str)
    (h : k ∈ m.map Prod.fst) :
    k ∈ (l.foldl (fun m kv => insertA m kv.1 kv.2) m).map Prod.fst := by
  induction l generalizing m with
  | nil => simpa using h
  | cons p t ih =>
    simp only [List.foldl_cons]
    exact ih _ (keys_insertA_mono _ _ _ _ h)

theorem keys_foldl_of_mem (l : List (Str × Str)) (m : List (Str × Str)) (k : Str)
    (h : k ∈ l.map Prod.fst) :
    k ∈ (l.foldl (fun m kv => insertA m kv.1 kv.2) m).map Prod.fst := by
  induction l generalizing m with
  | nil => simp at h
  | cons p t ih =>
    simp only [List.map_cons, List.mem_cons] at h
    simp only [List.foldl_cons]
    rcases h with h | h
    · subst h
      exact keys_foldl_mono _ _ _ (keys_insertA_self _ _ _)
    · exact ih _ h

/-! ## Lemmas about outcome sequencing and the merge structure -/

theorem seqOutcome_mem (xs : List (Outcome α)) (ys : List α)
    (hseq : seqOutcome xs = .ok ys) (x : Outcome α) (hx : x ∈ xs) (b : α)
    (hb : x = .ok b) : b ∈ ys := by
  induction xs generalizing ys with
  | nil => simp at hx
  | cons x0 t ih =>
    cases x0 with
    | ok a =>
      cases hst : seqOutcome t with
      | ok t' =>
        simp only [seqOutcome, hst] at hseq
        cases hseq
        rcases List.mem_cons.mp hx with h | h
        · subst h
          cases hb
          exact List.mem_cons_self _ _
        · exact List.mem_cons_of_mem _ (ih t' hst h)
      | err e => simp [seqOutcome, hst] at hseq
      | panicked => simp [seqOutcome, hst] at hseq
    | err e => simp [seqOutcome] at hseq
    | panicked => simp [seqOutcome] at hseq

theorem minifyEntries_ok (b o : Str) (E : List (Str × Str))
    (h : minifyEntries b o = .ok E) :
    ∃ bd od, docDecls b = .ok bd ∧ docDecls o = .ok od
      ∧ E = od.foldl (fun m kv => insertA m kv.1 kv.2) (collectA bd) := by
  unfold minifyEntries at h
  cases hb : docDecls b <;> simp only [hb] at h
  case ok bd =>
    cases ho : docDecls o <;> simp only [ho] at h
    case ok od =>
      cases h
      exact ⟨bd, od, rfl, rfl, rfl⟩
    case err e => exact absurd h (by simp)
    case panicked => exact absurd h (by simp)
  case err e => exact absurd h (by simp)
  case panicked => exact absurd h (by simp)

theorem minify_ok (ord : List (Str × Str) → List (Str × Str)) (b o out : Str)
    (h : minify ord b o = .ok out) :
    ∃ E, minifyEntries b o = .ok E
      ∧ out = headerOf b ++ ['\n', '\n'] ++ interc ['\n'] ((ord E).map serializePref) := by
  unfold minify at h
  cases hE : minifyEntries b o <;> simp only [hE] at h
  case ok E =>
    cases h
    exact ⟨E, rfl, rfl⟩
  case err e => exact absurd h (by simp)
  case panicked => exact absurd h (by simp)

/-- The first 76 lines of the base text, as delimited in the raw text,
form a prefix of the emitted header block followed by one newline —
provided no line of the base ends with a carriage return (which
`BufRead::lines` would strip). -/
theorem headerOf_prefix_aux (b r : Str)
    (hcr : ∀ p ∈ splitCh '\n' b, p.getLast? ≠ some '\r') :
    specFirstLines 76 b <+: headerOf b ++ ['\n'] ++ r := by
  have hrec : interc ['\n'] (splitCh '\n' b) = b := interc_splitCh '\n' b
  have hmap : ∀ L : List Str, (∀ p ∈ L, p ∈ splitCh '\n' b) → L.map stripCR = L := by
    intro L hL
    refine (List.map_congr_left ?_).trans (List.map_id L)
    intro p hp
    have hpcr := hcr p (hL p hp)
    simp [stripCR, hpcr]
  rcases List.eq_nil_or_concat (splitCh '\n' b) with hnil | ⟨l', x, hP⟩
  · exact absurd hnil (splitCh_ne_nil _ _)
  rw [List.concat_eq_append] at hP
  by_cases hx : x = []
  · subst hx
    have hlast : (splitCh '\n' b).getLast? = some [] := by
      rw [hP]; exact List.getLast?_concat _
    have hdrop : (splitCh '\n' b).dropLast = l' := by
      rw [hP]; exact List.dropLast_concat
    have hrl : rustLines b = l' := by
      simp only [rustLines]
      rw [hlast, if_pos rfl, hdrop]
      exact hmap l' (fun p hp => by rw [hP]; exact List.mem_append_left _ hp)
    by_cases hl' : l' = []
    · have hb0 := hrec
      rw [hP, hl'] at hb0
      simp only [interc, List.nil_append] at hb0
      rw [← hb0]
      have hsf : specFirstLines 76 [] = [] := by decide
      rw [hsf]
      exact List.nil_prefix
    · have hb2 : b = interc ['\n'] l' ++ ['\n'] := by
        rw [← hrec, hP, interc_concat _ _ _ hl']
        simp
      by_cases hlen : (splitCh '\n' b).length ≤ 76
      · have hsf : specFirstLines 76 b = b := by simp [specFirstLines, hlen]
        have hl'len : l'.length ≤ 76 := by
          rw [hP] at hlen
          simp at hlen
          omega
        have hho : headerOf b = interc ['\n'] l' := by
          simp only [headerOf, hrl]
          rw [List.take_of_length_le hl'len]
        rw [hsf, hho, hb2]
        exact List.prefix_append _ _
      · have hsf : specFirstLines 76 b
            = interc ['\n'] ((splitCh '\n' b).take 76) ++ ['\n'] := by
          simp [specFirstLines, hlen]
        have hl'len : 76 ≤ l'.length := by
          rw [hP] at hlen
          simp at hlen
          omega
        have htake : (splitCh '\n' b).take 76 = l'.take 76 := by
          rw [hP]
          exact List.take_append_of_le_length hl'len
        have hho : headerOf b = interc ['\n'] (l'.take 76) := by
          simp only [headerOf, hrl]
        rw [hsf, htake, hho]
        exact List.prefix_append _ _
  · have hlast : (splitCh '\n' b).getLast? = some x := by
      rw [hP]; exact List.getLast?_concat _
    have hrl : rustLines b = splitCh '\n' b := by
      simp only [rustLines]
      rw [hlast, if_neg (by simpa using hx), hP, List.dropLast_concat]
      rw [hmap l' (fun p hp => by rw [hP]; exact List.mem_append_left _ hp)]
      simp
    by_cases hlen : (splitCh '\n' b).length ≤ 76
    · have hsf : specFirstLines 76 b = b := by simp [specFirstLines, hlen]
      have hho : headerOf b = b := by
        simp only [headerOf, hrl]
        rw [List.take_of_length_le hlen, hrec]
      rw [hsf, hho, List.append_assoc]
      exact List.prefix_append _ _
    · have hsf : specFirstLines 76 b
          = interc ['\n'] ((splitCh '\n' b).take 76) ++ ['\n'] := by
        simp [specFirstLines, hlen]
      have hho : headerOf b = interc ['\n'] ((splitCh '\n' b).take 76) := by
        simp only [headerOf, hrl]
      rw [hsf, hho]
      exact List.prefix_append _ _

theorem containsSub_false (s pat : Str) (h : containsSub s pat = false) :
    (splitSub pat s).drop 1 = [] := by
  simp only [containsSub, Bool.or_eq_false_iff, Bool.not_eq_false'] at h
  exact List.isEmpty_iff.mp h.2

/-! ## Claim C1 -/

/-- C1 (counterexample): the claim says the extracted value is the full
text between the first comma and the first closing parenthesis, commas
inside the value preserved verbatim.  On the declaration
`user_pref("k", [1,2]);` the code extracts the value `[1`, truncated at
the second comma, not the claimed `[1,2]`. -/
theorem c1_counterexample :
    extract_pref ("user_pref(\"k\", [1,2]);".data) = .ok ("k".data, "[1".data)
    ∧ "[1".data ≠ "[1,2]".data := by
  refine ⟨by decide, by decide⟩

/-- C1 (amended): the value extracted from a declaration line is the text
between the first comma and whichever of the second comma or the first
closing parenthesis comes first, with surrounding whitespace stripped;
when the value contains a comma, the text from that comma on is dropped.
Part one: comma-free values are extracted in full (text between the first
comma and the first closing parenthesis, trimmed).  Part two: a value
with a comma is truncated at it. -/
theorem c1_amended :
    (∀ k v t : Str, ',' ∉ k → ')' ∉ k → ',' ∉ v → ')' ∉ v →
      extract_pref (declMark ++ k ++ [','] ++ v ++ [')'] ++ t)
        = .ok (trimS (removeChar '"' k), trimS v))
    ∧ (∀ k v w t : Str, ',' ∉ k → ')' ∉ k → ',' ∉ v → ')' ∉ v → ')' ∉ w →
      extract_pref (declMark ++ k ++ [','] ++ v ++ [','] ++ w ++ [')'] ++ t)
        = .ok (trimS (removeChar '"' k), trimS v)) := by
  constructor
  · intro k v t hk1 hk2 hv1 hv2
    unfold extract_pref
    rw [show declMark ++ k ++ [','] ++ v ++ [')'] ++ t
        = declMark ++ ((k ++ ',' :: v) ++ ')' :: t) from by simp]
    rw [show (10 : Nat) = declMark.length from by decide, List.drop_left]
    rw [splitChGo_append ')' _ t (by simp [hk2, hv2])]
    rw [show splitCh ',' (k ++ ',' :: v) = [k, v] from by
      unfold splitCh
      rw [splitChGo_append ',' k v hk1, splitChGo_of_not_mem ',' v hv1]]
  · intro k v w t hk1 hk2 hv1 hv2 hw
    unfold extract_pref
    rw [show declMark ++ k ++ [','] ++ v ++ [','] ++ w ++ [')'] ++ t
        = declMark ++ ((k ++ ',' :: (v ++ ',' :: w)) ++ ')' :: t) from by simp]
    rw [show (10 : Nat) = declMark.length from by decide, List.drop_left]
    rw [splitChGo_append ')' _ t (by simp [hk2, hv2, hw])]
    rw [show splitCh ',' (k ++ ',' :: (v ++ ',' :: w))
        = k :: v :: splitCh ',' w from by
      unfold splitCh
      rw [splitChGo_append ',' k _ hk1, splitChGo_append ',' v w hv1]]

/-- C1 (witness for the amended theorem): a concrete comma-free
declaration and its extraction. -/
theorem c1_amended_witness :
    (',' ∉ ("\"p\"".data : Str)) ∧ (')' ∉ ("\"p\"".data : Str))
    ∧ (',' ∉ (" 7".data : Str)) ∧ (')' ∉ (" 7".data : Str))
    ∧ extract_pref (declMark ++ "\"p\"".data ++ [','] ++ " 7".data ++ [')'] ++ ";".data)
        = .ok (trimS (removeChar '"' ("\"p\"".data)), trimS (" 7".data)) :=
  ⟨by decide, by decide, by decide, by decide,
    c1_amended.1 _ _ _ (by decide) (by decide) (by decide) (by decide)⟩

/-! ## Claim C4 -/

/-- C4 (counterexample): the claim says the parser fails by returning a
parse or I/O error when the header lines are absent.  On empty input all
four lines are absent, and the parser panics (aborts on `unwrap`), it
does not return an error value. -/
theorem c4_counterexample :
    get_version_info ("".data) = .panicked
    ∧ (get_version_info ("".data)).isErr = false := by
  refine ⟨by decide, by decide⟩

/-- C4 (amended): when any of the marker-carrying header lines is absent
or lacks its literal marker, the parser panics (process abort via
`unwrap` on a missing split segment) instead of returning an error value;
consequently the caller never receives any `VersionRecord`, partially
populated or otherwise.  (An absent line reads as the empty string, which
lacks every marker, so absence is covered by the marker condition.) -/
theorem c4_amended (t : Str)
    (h : containsSub (readLine t 1) ("name: ".data) = false
       ∨ containsSub (readLine t 2) ("date: ".data) = false
       ∨ containsSub (readLine t 3) ("version ".data) = false) :
    get_version_info t = .panicked := by
  cases h1 : ((splitSub ("name: ".data) (readLine t 1)).drop 1).head? with
  | none =>
    unfold get_version_info
    simp only [h1]
  | some nm =>
    cases h2 : ((splitSub ("date: ".data) (readLine t 2)).drop 1).head? with
    | none =>
      unfold get_version_info
      simp only [h1, h2]
    | some dt =>
      cases h3 : ((splitSub ("version ".data) (readLine t 3)).drop 1).head? with
      | none =>
        unfold get_version_info
        simp only [h1, h2, h3]
      | some vr =>
        exfalso
        rcases h with h | h | h
        · rw [containsSub_false _ _ h] at h1
          simp at h1
        · rw [containsSub_false _ _ h] at h2
          simp at h2
        · rw [containsSub_false _ _ h] at h3
          simp at h3

/-- C4 (witness for the amended theorem): a header whose date line lacks
its marker makes the parser panic. -/
theorem c4_amended_witness :
    (containsSub (readLine ("/*\n* name: ghacks\nbad\n* version 1\n".data) 2)
        ("date: ".data) = false)
    ∧ get_version_info ("/*\n* name: ghacks\nbad\n* version 1\n".data) = .panicked :=
  ⟨by decide, c4_amended _ (Or.inr (Or.inl (by decide)))⟩

/-! ## Claim C5 -/

/-- C5 (counterexample): the claim says the first 76 lines of the base
are emitted byte-for-byte as a prefix of the merged output for every base
text.  For the base `"a\r\nb"` the carriage return is stripped by the
line iterator, so the emitted header is `"a\nb"` and the raw first lines
`"a\r\nb"` are not a prefix of the output. -/
theorem c5_counterexample :
    minify (fun l => l) ("a\r\nb".data) ("".data) = .ok ("a\nb\n\n".data)
    ∧ ¬ (specFirstLines 76 ("a\r\nb".data) <+: "a\nb\n\n".data) := by
  refine ⟨by decide, by decide⟩

/-- C5 (amended): whenever the merge produces an output and no line of
the base text ends with a carriage return (the one byte the line iterator
strips), the first 76 lines of the base are a byte-for-byte prefix of the
output. -/
theorem c5_amended (ord : List (Str × Str) → List (Str × Str)) (b o out : Str)
    (hcr : ∀ p ∈ splitCh '\n' b, p.getLast? ≠ some '\r')
    (hok : minify ord b o = .ok out) :
    specFirstLines 76 b <+: out := by
  obtain ⟨E, hE, hout⟩ := minify_ok ord b o out hok
  rw [hout]
  rw [show headerOf b ++ ['\n', '\n'] ++ interc ['\n'] ((ord E).map serializePref)
      = headerOf b ++ ['\n'] ++ ('\n' :: interc ['\n'] ((ord E).map serializePref)) from by
    simp]
  exact headerOf_prefix_aux b _ hcr

/-- C5 (witness for the amended theorem): a concrete carriage-return-free
base whose first lines are preserved as a prefix. -/
theorem c5_amended_witness :
    (∀ p ∈ splitCh '\n' ("x\ny".data), p.getLast? ≠ some '\r')
    ∧ minify (fun l => l) ("x\ny".data) ("".data) = .ok ("x\ny\n\n".data)
    ∧ specFirstLines 76 ("x\ny".data) <+: ("x\ny\n\n".data) :=
  ⟨by decide, by decide,
    c5_amended (fun l => l) ("x\ny".data) ("".data) ("x\ny\n\n".data) (by decide) (by decide)⟩

/-! ## Claim C6 -/

/-- C6 (counterexample): the claim says a `user_pref(` line inside the
header block is emitted only verbatim and contributes no entry to the
declaration section.  For a one-line base consisting of a declaration
line (well within the first 76 lines), the merge both emits it verbatim
as the header and parses it into the entry map, so the output repeats it
in the declaration section. -/
theorem c6_counterexample :
    minifyEntries ("user_pref(\"k\", 1);".data) ("".data)
      = .ok [("k".data, "1".data)]
    ∧ ("user_pref(\"k\", 1);".data) ∈ (rustLines ("user_pref(\"k\", 1);".data)).take 76
    ∧ minify (fun l => l) ("user_pref(\"k\", 1);".data) ("".data)
        = .ok ("user_pref(\"k\", 1);\n\nuser_pref(\"k\", 1);".data) := by
  refine ⟨by decide, by decide, by decide⟩

/-- C6 (amended): the header block is emitted verbatim, but declaration
scanning covers the whole base document including the header block: every
`user_pref(` line among the first 76 lines whose extraction succeeds also
contributes its key to the merged entry map. -/
theorem c6_amended (base ov : Str) (E : List (Str × Str)) (line k v : Str)
    (hE : minifyEntries base ov = .ok E)
    (hline : line ∈ (rustLines base).take 76)
    (hdecl : declMark.isPrefixOf line = true)
    (hex : extract_pref line = .ok (k, v)) :
    k ∈ E.map Prod.fst := by
  obtain ⟨bd, od, hbd, hod, hE2⟩ := minifyEntries_ok base ov E hE
  have hline' : line ∈ rustLines base := List.take_subset _ _ hline
  have hpl : line ∈ prefLines base := List.mem_filter.mpr ⟨hline', hdecl⟩
  have hmem : (k, v) ∈ bd := by
    apply seqOutcome_mem _ _ hbd (extract_pref line) _ _ hex
    exact List.mem_map_of_mem extract_pref hpl
  subst hE2
  apply keys_foldl_mono
  unfold collectA
  apply keys_foldl_of_mem
  exact List.mem_map_of_mem Prod.fst hmem

/-- C6 (witness for the amended theorem): a concrete header-block
declaration line whose key reaches the merged entry map. -/
theorem c6_amended_witness :
    minifyEntries ("user_pref(\"z\", 9);".data) ("".data) = .ok [("z".data, "9".data)]
    ∧ ("user_pref(\"z\", 9);".data) ∈ (rustLines ("user_pref(\"z\", 9);".data)).take 76
    ∧ declMark.isPrefixOf ("user_pref(\"z\", 9);".data) = true
    ∧ extract_pref ("user_pref(\"z\", 9);".data) = .ok ("z".data, "9".data)
    ∧ ("z".data : Str) ∈ ([(("z".data : Str), ("9".data : Str))]).map Prod.fst :=
  ⟨by decide, by decide, by decide, by decide,
    c6_amended ("user_pref(\"z\", 9);".data) ("".data) [("z".data, "9".data)]
      ("user_pref(\"z\", 9);".data) ("z".data) ("9".data)
      (by decide) (by decide) (by decide) (by decide)⟩

/-! ## Claim C7 -/

/-- C7: override-wins merge.  For a key declared in both documents the
merged entry map carries the override document's value (its last
occurrence there); a key declared only in the base keeps its base value;
a key declared only in the overrides is added.  Moreover any merged entry
appears, serialized, among the output's declaration lines for every
admissible iteration order. -/
theorem c7_merge_override (b o : Str) (E mb mo : List (Str × Str)) (k : Str)
    (hE : minifyEntries b o = .ok E)
    (hmb : docMap b = .ok mb)
    (hmo : docMap o = .ok mo) :
    (∀ vb vo, lookupA mb k = some vb → lookupA mo k = some vo → lookupA E k = some vo)
    ∧ (∀ vb, lookupA mb k = some vb → lookupA mo k = none → lookupA E k = some vb)
    ∧ (∀ vo, lookupA mo k = some vo → lookupA E k = some vo)
    ∧ (∀ (v : Str) (ord : List (Str × Str) → List (Str × Str)),
        lookupA E k = some v → (∀ l, (ord l).Perm l) →
        serializePref (k, v) ∈ (ord E).map serializePref) := by
  obtain ⟨bd, od, hbd, hod, hE2⟩ := minifyEntries_ok b o E hE
  have hmb0 : docMap b = .ok (collectA bd) := by
    unfold docMap
    rw [hbd]
  have hmo0 : docMap o = .ok (collectA od) := by
    unfold docMap
    rw [hod]
  rw [hmb0] at hmb
  rw [hmo0] at hmo
  have hmb2 : mb = collectA bd := (Outcome.ok.inj hmb).symm
  have hmo2 : mo = collectA od := (Outcome.ok.inj hmo).symm
  have hmaster : lookupA E k = orO (lookupA mo k) (lookupA mb k) := by
    subst hE2 hmb2 hmo2
    rw [lookupA_foldl_insertA, ← lookupA_collectA]
  refine ⟨?_, ?_, ?_, ?_⟩
  · intro vb vo hb ho
    rw [hmaster, ho]
    rfl
  · intro vb hb ho
    rw [hmaster, ho, hb]
    rfl
  · intro vo ho
    rw [hmaster, ho]
    rfl
  · intro v ord hv hperm
    have hmem : (k, v) ∈ E := lookupA_mem E k v hv
    exact List.mem_map_of_mem serializePref ((hperm E).mem_iff.mpr hmem)

def c7b : Str := "user_pref(\"a.b\", true);\nuser_pref(\"c.d\", 1);".data

def c7o : Str := "user_pref(\"c.d\", 2);\nuser_pref(\"e.f\", \"x\");".data

/-- C7 (witness): the specification's own merge scenario — `c.d` takes
the override value 2, `a.b` keeps `true`, `e.f` is added. -/
theorem c7_merge_override_witness :
    minifyEntries c7b c7o
      = .ok [("a.b".data, "true".data), ("c.d".data, "2".data), ("e.f".data, "\"x\"".data)]
    ∧ docMap c7b = .ok [("a.b".data, "true".data), ("c.d".data, "1".data)]
    ∧ docMap c7o = .ok [("c.d".data, "2".data), ("e.f".data, "\"x\"".data)]
    ∧ lookupA [("c.d".data, "2".data), ("e.f".data, "\"x\"".data)] ("c.d".data)
        = some ("2".data)
    ∧ lookupA [("a.b".data, "true".data), ("c.d".data, "2".data), ("e.f".data, "\"x\"".data)]
        ("c.d".data) = some ("2".data) :=
  ⟨by decide, by decide, by decide, by decide,
    (c7_merge_override c7b c7o
        [("a.b".data, "true".data), ("c.d".data, "2".data), ("e.f".data, "\"x\"".data)]
        [("a.b".data, "true".data), ("c.d".data, "1".data)]
        [("c.d".data, "2".data), ("e.f".data, "\"x\"".data)]
        ("c.d".data) (by decide) (by decide) (by decide)).2.2.1
      ("2".data) (by decide)⟩

/-! ## Claim C8 -/

def c8b : Str := "user_pref(\"a\", 1);\nuser_pref(\"b\", 2);".data

/-- C8 (counterexample): the claim says every two evaluations of the
merge produce identical output because iteration is deterministic.  The
entry map is a standard `HashMap` whose iteration order is unspecified:
two admissible orders (the canonical one and its reverse — a permutation
of the entries, hence a possible `HashMap` yield order) produce different
output texts on the same inputs. -/
theorem c8_counterexample :
    minify (fun l => l) c8b ("".data) ≠ minify List.reverse c8b ("".data)
    ∧ (List.reverse [(("a".data : Str), ("1".data : Str)), ("b".data, "2".data)]).Perm
        [(("a".data : Str), ("1".data : Str)), ("b".data, "2".data)]
    ∧ minifyEntries c8b ("".data) = .ok [("a".data, "1".data), ("b".data, "2".data)] := by
  refine ⟨by decide, by decide, by decide⟩

/-- C8 (amended): the merge is deterministic only up to the order of the
serialized declaration lines: the header and the set of entries are
functions of the inputs alone, and any two admissible iteration orders
yield outputs whose declaration lines are permutations of each other. -/
theorem c8_amended (ord1 ord2 : List (Str × Str) → List (Str × Str)) (b o : Str)
    (E : List (Str × Str))
    (h1 : ∀ l, (ord1 l).Perm l) (h2 : ∀ l, (ord2 l).Perm l)
    (hE : minifyEntries b o = .ok E) :
    minify ord1 b o
      = .ok (headerOf b ++ ['\n', '\n'] ++ interc ['\n'] ((ord1 E).map serializePref))
    ∧ minify ord2 b o
      = .ok (headerOf b ++ ['\n', '\n'] ++ interc ['\n'] ((ord2 E).map serializePref))
    ∧ ((ord1 E).map serializePref).Perm ((ord2 E).map serializePref) := by
  refine ⟨by simp [minify, hE], by simp [minify, hE], ?_⟩
  exact ((h1 E).trans (h2 E).symm).map serializePref

/-- C8 (witness for the amended theorem): the identity and reversal
orders on a concrete two-entry merge. -/
theorem c8_amended_witness :
    (∀ l : List (Str × Str), (List.reverse l).Perm l)
    ∧ minifyEntries c8b ("".data) = .ok [("a".data, "1".data), ("b".data, "2".data)]
    ∧ (((fun l => l) [(("a".data : Str), ("1".data : Str)), ("b".data, "2".data)]).map
          serializePref).Perm
        ((List.reverse [(("a".data : Str), ("1".data : Str)), ("b".data, "2".data)]).map
          serializePref) :=
  ⟨fun l => List.reverse_perm l, by decide,
    (c8_amended (fun l => l) List.reverse c8b ("".data)
        [("a".data, "1".data), ("b".data, "2".data)]
        (fun l => List.Perm.refl l) (fun l => List.reverse_perm l) (by decide)).2.2⟩

/-! ## Claim C2 -/

/-- C2: the decision step commits exactly on structural equality of the
two version records.  With every filesystem operation succeeding: when
`oldV = newV` the live file is renamed to the backup name and the staging
file onto the live path (backup holds the old live content, live holds
the staging content, staging is gone); when the records differ the
staging file is deleted, the live file is untouched and no backup is
created. -/
theorem c2_decision (oldV newV : Version) (bkp : Str) (fs : FS) (sc lc : Str)
    (hb1 : bkp ≠ liveP) (hb2 : bkp ≠ stagingP)
    (hs : fs stagingP = some sc) (hl : fs liveP = some lc)
    (hp : get_version_info sc = .ok newV) :
    (oldV = newV →
      (runTail oldV bkp fs []).1 = .okRun
      ∧ (runTail oldV bkp fs []).2 bkp = some lc
      ∧ (runTail oldV bkp fs []).2 liveP = some sc
      ∧ (runTail oldV bkp fs []).2 stagingP = none)
    ∧ (oldV ≠ newV →
      (runTail oldV bkp fs []).1 = .okRun
      ∧ (runTail oldV bkp fs []).2 stagingP = none
      ∧ (runTail oldV bkp fs []).2 liveP = some lc
      ∧ (runTail oldV bkp fs []).2 bkp = fs bkp) := by
  have hb1' : liveP ≠ bkp := Ne.symm hb1
  have hb2' : stagingP ≠ bkp := Ne.symm hb2
  have hsl : stagingP ≠ liveP := by decide
  have hls : liveP ≠ stagingP := by decide
  constructor
  · intro hv
    simp [runTail, hs, hp, hv, fsSet, hb1, hb2, hb1', hb2', hsl, hls, hl]
  · intro hv
    simp [runTail, hs, hp, hv, fsSet, hb1, hb2, hb1', hb2', hsl, hls, hl]

/-- C2 (witness): a concrete equal-version run commits — backup created
with the old live content, staging promoted, staging path gone. -/
theorem c2_decision_witness :
    exFS stagingP = some exHeader ∧ exFS liveP = some exHeader
    ∧ get_version_info exHeader = .ok exVersion
    ∧ ((runTail exVersion (backup_name ("T".data)) exFS []).1 = .okRun
       ∧ (runTail exVersion (backup_name ("T".data)) exFS []).2 (backup_name ("T".data))
           = some exHeader
       ∧ (runTail exVersion (backup_name ("T".data)) exFS []).2 liveP = some exHeader
       ∧ (runTail exVersion (backup_name ("T".data)) exFS []).2 stagingP = none) :=
  ⟨by decide, by decide, by decide,
    (c2_decision exVersion exVersion (backup_name ("T".data)) exFS exHeader exHeader
        (by decide) (by decide) (by decide) (by decide) (by decide)).1 rfl⟩

/-! ## Claim C3 -/

/-- C3 (counterexample): the claim says any failure after the candidate
is built leaves the live file's content and existence unchanged.  In the
commit branch, when the backup rename succeeds and the promote rename
fails, the run fails with an I/O error and the live file no longer
exists. -/
theorem c3_counterexample :
    (runTail exVersion (backup_name ("T".data)) exFS [true, true, false]).1
      = .errRun (.IoError .opFailed)
    ∧ exFS liveP = some exHeader
    ∧ (runTail exVersion (backup_name ("T".data)) exFS [true, true, false]).2 liveP
        = none := by
  refine ⟨by decide, by decide, by decide⟩

/-- C3 (amended): on any failing run of the workflow tail, either the
live file is completely untouched, or the failure is precisely the
documented gap — the backup rename succeeded and the promote rename
failed, in which case the live file is absent and its former content
sits at the backup path.  The only operations mutating the live path
remain the two renames of the commit branch. -/
theorem c3_amended (oldV : Version) (bkp : Str) (fs : FS) (oracle : List Bool)
    (hb1 : bkp ≠ liveP) (hb2 : bkp ≠ stagingP)
    (hfail : (runTail oldV bkp fs oracle).1 ≠ .okRun) :
    (runTail oldV bkp fs oracle).2 liveP = fs liveP
    ∨ ((runTail oldV bkp fs oracle).2 liveP = none
       ∧ (runTail oldV bkp fs oracle).2 bkp = fs liveP
       ∧ oracle.getD 2 true = false) := by
  have hb1' : liveP ≠ bkp := Ne.symm hb1
  have hb2' : stagingP ≠ bkp := Ne.symm hb2
  have hsl : stagingP ≠ liveP := by decide
  by_cases h0 : oracle[0]?.getD true = false
  · left
    simp [runTail, h0]
  · cases hsc : fs stagingP with
    | none =>
      left
      simp [runTail, h0, hsc]
    | some sc =>
      cases hgv : get_version_info sc with
      | panicked =>
        left
        simp [runTail, h0, hsc, hgv]
      | err e =>
        left
        simp [runTail, h0, hsc, hgv]
      | ok newV =>
        by_cases hv : oldV = newV
        · by_cases h1 : oracle[1]?.getD true = false
          · left
            simp [runTail, h0, hsc, hgv, hv, h1]
          · cases hlc : fs liveP with
            | none =>
              left
              simp [runTail, h0, hsc, hgv, hv, h1, hlc]
            | some lc =>
              by_cases h2 : oracle[2]?.getD true = false
              · right
                refine ⟨?_, ?_, by simpa using h2⟩
                · simp [runTail, h0, hsc, hgv, hv, h1, hlc, h2, fsSet, hb1']
                · simp [runTail, h0, hsc, hgv, hv, h1, hlc, h2, fsSet, hb1', hb2']
              · exfalso
                apply hfail
                simp [runTail, h0, hsc, hgv, hv, h1, hlc, h2, fsSet, hb2', hsl, hsc]
        · by_cases h1 : oracle[1]?.getD true = false
          · left
            simp [runTail, h0, hsc, hgv, hv, h1]
          · exfalso
            apply hfail
            simp [runTail, h0, hsc, hgv, hv, h1]

def c3fsW : FS := fun _ => none

/-- C3 (witness for the amended theorem): a failing run (missing staging
file) that leaves the live path untouched. -/
theorem c3_amended_witness :
    (backup_name ("W".data) ≠ liveP) ∧ (backup_name ("W".data) ≠ stagingP)
    ∧ ((runTail exVersion (backup_name ("W".data)) c3fsW []).1 ≠ .okRun)
    ∧ ((runTail exVersion (backup_name ("W".data)) c3fsW []).2 liveP = c3fsW liveP
       ∨ ((runTail exVersion (backup_name ("W".data)) c3fsW []).2 liveP = none
          ∧ (runTail exVersion (backup_name ("W".data)) c3fsW []).2 (backup_name ("W".data))
              = c3fsW liveP
          ∧ ([] : List Bool).getD 2 true = false)) :=
  ⟨by decide, by decide, by decide,
    c3_amended exVersion (backup_name ("W".data)) c3fsW [] (by decide) (by decide)
      (by decide)⟩

/-! ## Claim C9 -/

/-- C9: when all three marker lines are present but the extracted name
segment does not contain the token `"ghacks"`, the parser returns
`ParseError "Version not recognized"` and no record. -/
theorem c9_unrecognized (t nm dt vr : Str)
    (h1 : ((splitSub ("name: ".data) (readLine t 1)).drop 1).head? = some nm)
    (h2 : ((splitSub ("date: ".data) (readLine t 2)).drop 1).head? = some dt)
    (h3 : ((splitSub ("version ".data) (readLine t 3)).drop 1).head? = some vr)
    (hg : containsSub nm ("ghacks".data) = false) :
    get_version_info t = .err (.ParseError ("Version not recognized".data)) := by
  unfold get_version_info
  simp only [h1, h2, h3]
  simp [hg]

def c9t : Str := "/*\n* name: other\n* date: d\n* version 1\n".data

/-- C9 (witness): a well-formed header whose name lacks the token. -/
theorem c9_unrecognized_witness :
    ((splitSub ("name: ".data) (readLine c9t 1)).drop 1).head? = some ("other\n".data)
    ∧ containsSub ("other\n".data) ("ghacks".data) = false
    ∧ get_version_info c9t = .err (.ParseError ("Version not recognized".data)) :=
  ⟨by decide, by decide,
    c9_unrecognized c9t ("other\n".data) ("d\n".data) ("1\n".data)
      (by decide) (by decide) (by decide) (by decide)⟩

/-! ## Claim C10 -/

/-- C10: when the staging file is present but its header parse returns an
error, the workflow tail returns exactly that error with the filesystem
unchanged — in particular the staging file is still present; it is
removed only on the versions-differ branch. -/
theorem c10_staging_kept (oldV : Version) (bkp : Str) (fs : FS) (sc : Str)
    (e : UpdaterError)
    (hs : fs stagingP = some sc)
    (hp : get_version_info sc = .err e) :
    runTail oldV bkp fs [] = (.errRun e, fs)
    ∧ (runTail oldV bkp fs []).2 stagingP = some sc := by
  have h : runTail oldV bkp fs [] = (.errRun e, fs) := by
    simp [runTail, hs, hp]
  refine ⟨h, ?_⟩
  rw [h]
  exact hs

def c10t : Str := "/*\n* name: another\n* date: d2\n* version 9\n".data

def c10fs : FS := fun p => if p = stagingP then some c10t else none

/-- C10 (witness): a staging file with an unrecognized header — the parse
error propagates and the staging file stays on disk. -/
theorem c10_staging_kept_witness :
    c10fs stagingP = some c10t
    ∧ get_version_info c10t = .err (.ParseError ("Version not recognized".data))
    ∧ runTail exVersion (backup_name ("T".data)) c10fs []
        = (.errRun (.ParseError ("Version not recognized".data)), c10fs)
    ∧ (runTail exVersion (backup_name ("T".data)) c10fs []).2 stagingP = some c10t :=
  ⟨by decide, by decide,
    (c10_staging_kept exVersion (backup_name ("T".data)) c10fs c10t
        (.ParseError ("Version not recognized".data)) (by decide) (by decide)).1,
    (c10_staging_kept exVersion (backup_name ("T".data)) c10fs c10t
        (.ParseError ("Version not recognized".data)) (by decide) (by decide)).2⟩
